import Mathlib

/-!
Verification of the turn execution engine of a command-line Gemini client.

This file gives a shallow embedding, in Lean, of the three core components
of the repository and proves the specification's claims about them:

* `turn.py` — the `Turn.run` loop (streamed-response parsing, tool-call
  batching, transcript construction, error handling);
* `core_tool_scheduler.py` — the `CoreToolScheduler` state machine
  (validation, confirmation, execution, result draining);
* `utils/retry.py` — `retry_with_backoff` and `should_retry`
  (retry classification, backoff/jitter delays, persistent-429 fallback).

Modelling conventions:
* Python dictionaries carrying opaque JSON payloads (tool arguments, tool
  results, grounding metadata) are modelled by concrete types with decidable
  equality (`Args` as an association list, results and metadata as strings);
  none of the proved properties depends on their internal structure.
* Asynchronous functions become pure functions; `asyncio.gather` over the
  per-call execution tasks becomes a list map (the scheduler stores calls in
  request order and never reorders them, so completion order is irrelevant);
  exceptions raised by a tool's `execute` become the `Except.error` case.
* Floating-point delays and wall-clock times are modelled by rationals;
  `random.random()` values and current times are passed in explicitly.
* Each `ToolCall` record carries a ghost field `execCount` counting how many
  times the underlying capability's `execute` was invoked; it mirrors no
  Python field and is used only to state at-most-once execution.
-/

namespace GeminiCli

/-- Tool-call argument dictionaries (Python `dict` under `args`),
modelled as association lists over strings. -/
abbrev Args := List (String × String)

/-- Opaque tool execution result (the Python `result` dict). -/
abbrev ToolResult := String

/-- Opaque grounding metadata payload (`groundingMetadata`). -/
abbrev Grounding := String

/-- Opaque confirmation-details payload returned by
`should_confirm_execute`. -/
abbrev ConfDetails := String

/-- The `response` object inside a `functionResponse` part:
`_format_success_response` wraps the result under `content`,
`_format_error_response` wraps a message under `error`. -/
inductive RespPayload where
  | content (result : ToolResult)
  | error (msg : String)
  deriving DecidableEq, Repr

/-- A message part: exactly one of `text`, `functionCall`,
`functionResponse`.  The function-call name is optional because
`original_function_call.get('name')` may yield `None`. -/
inductive Part where
  | text (s : String)
  | functionCall (name : Option String) (args : Args)
  | functionResponse (name : Option String) (payload : RespPayload)
  deriving DecidableEq, Repr

/-- Message role. -/
inductive Role where
  | user
  | model
  deriving DecidableEq, Repr

/-- A transcript message: a role together with a list of parts. -/
structure Message where
  role : Role
  parts : List Part
  deriving DecidableEq, Repr

/-- Mirror of `ToolConfirmationOutcome` from `tools/tool_io.py`. -/
inductive Outcome where
  | proceedOnce
  | proceedAlways
  | cancel
  deriving DecidableEq, Repr

/-! ### Decimal rendering of ordinals

`turn.py` builds `callId` as the f-string
an f-string of the tool name, a dash and the batch index; the index is rendered in decimal by
Python's `str`.  We model that rendering by `natToDec` (fuel-based so that
it is structurally recursive and evaluates in the kernel) and prove it
injective via the explicit decimal-value inverse `decValFrom`. -/

/-- The decimal digit character for `d` (for `d ≤ 9`; larger inputs are
clamped, but are never produced by `natToDec`). -/
def digitChar : Nat → Char
  | 0 => '0' | 1 => '1' | 2 => '2' | 3 => '3' | 4 => '4'
  | 5 => '5' | 6 => '6' | 7 => '7' | 8 => '8' | _ => '9'

/-- Decimal digit test (codepoints 48–57). -/
def isDecDigit (c : Char) : Bool := 48 ≤ c.toNat && c.toNat ≤ 57

/-- Fuel-based decimal rendering: most significant digit first. -/
def natToDecAux : Nat → Nat → List Char
  | 0, _ => []
  | f + 1, n =>
    if n < 10 then [digitChar n]
    else natToDecAux f (n / 10) ++ [digitChar (n % 10)]

/-- Decimal rendering of a natural number, as Python `str` renders a
non-negative `int`. -/
def natToDec (n : Nat) : List Char := natToDecAux (n + 1) n

/-- Decimal value of a digit list, with accumulator. -/
def decValFrom : List Char → Nat → Nat
  | [], a => a
  | c :: t, a => decValFrom t (a * 10 + (c.toNat - 48))

/-- Maximal run of decimal digits at the end of a character list. -/
def digitSuffix (l : List Char) : List Char :=
  (List.takeWhile isDecDigit l.reverse).reverse

/-- The `callId` construction from `turn.py`: the f-string of
`original_function_call.get('name', 'unknown')`, a dash, and
`len(function_calls)`. -/
def mkCallId (nm : Option String) (idx : Nat) : String :=
  nm.getD "unknown" ++ "-" ++ String.mk (natToDec idx)

/-! ### The tool-call scheduler (`core_tool_scheduler.py`)

`CoreToolScheduler` keeps a list `_tool_calls` of per-call records; we model
that list directly and each method as a function on it.  The `Turn` owns one
scheduler per turn and calls `schedule` once per batch (which clears the
previous batch's state first). -/

/-- A tool-call request extracted from a model response
(the callId-name-args dictionary built in `Turn.run`).
`name` is `Option` because `fc.get('name')` defaults to `None`. -/
structure ToolCallRequest where
  callId : String
  name : Option String
  args : Args
  deriving DecidableEq, Repr

/-- The capability contract a registered tool exposes to the scheduler:
`should_confirm_execute` (async, returns confirmation details or `None`) and
`execute` (async, may raise — modelled by `Except`).  The per-tool
always-approve memory (`handle_confirmation_response`) is tool-internal
state not observed by any claim and is not modelled. -/
structure Tool where
  shouldConfirmExecute : Args → Option ConfDetails
  execute : Args → Except String ToolResult

/-- Model of `ToolRegistry.get_tool`: a name-keyed dictionary lookup. -/
abbrev Registry := String → Option Tool

/-- Lookup `self._tool_registry.get_tool(fc.get("name"))` — a `None` name is not a
key of the registry dictionary, so it looks up to `None`. -/
def lookupTool (reg : Registry) : Option String → Option Tool
  | none => none
  | some nm => reg nm

/-- Mirror of `ToolCallStatus` from `core_tool_scheduler.py`. -/
inductive Status where
  | validating
  | awaitingApproval
  | executing
  | success
  | error
  | cancelled
  deriving DecidableEq, Repr

/-- A scheduler-internal tool-call record (`BaseToolCall`).  `execCount` is
a ghost field counting invocations of the capability's `execute`; it has no
Python counterpart and only instruments the model. -/
structure ToolCall where
  request : ToolCallRequest
  status : Status
  tool : Option Tool
  confirmationDetails : Option ConfDetails := none
  response : Option Part := none
  execCount : Nat := 0

/-- Mirror of `_format_success_response`. -/
def formatSuccessResponse (req : ToolCallRequest) (result : ToolResult) : Part :=
  Part.functionResponse req.name (RespPayload.content result)

/-- Mirror of `_format_error_response`. -/
def formatErrorResponse (req : ToolCallRequest) (msg : String) : Part :=
  Part.functionResponse req.name (RespPayload.error msg)

/-- Mirror of `_execute_call`: guarded against re-execution; a raising capability is
caught and converted to an error response.  (A `None` tool here would raise
an `AttributeError` inside the same `try`, also caught: error response
without any capability execution.) -/
def executeCall (c : ToolCall) : ToolCall :=
  if c.status ≠ Status.executing ∨ c.response.isSome then c
  else
    match c.tool with
    | some t =>
      match t.execute c.request.args with
      | Except.ok r =>
        { c with status := Status.success,
                 response := some (formatSuccessResponse c.request r),
                 execCount := c.execCount + 1 }
      | Except.error m =>
        { c with status := Status.error,
                 response := some (formatErrorResponse c.request m),
                 execCount := c.execCount + 1 }
    | none =>
      { c with status := Status.error,
               response := some (formatErrorResponse c.request
                 "AttributeError: NoneType object has no attribute execute") }

/-- The `validating` branch of `_process_tool_calls` for one call. -/
def validateCall (c : ToolCall) : ToolCall :=
  if c.status = Status.validating then
    match c.tool with
    | none =>
      { c with status := Status.error,
               response := some (formatErrorResponse c.request "Tool not found.") }
    | some t =>
      match t.shouldConfirmExecute c.request.args with
      | some d =>
        { c with status := Status.awaitingApproval, confirmationDetails := some d }
      | none => { c with status := Status.executing }
  else c

/-- Mirror of `_process_tool_calls`: validate every call, then run all calls that are
in `executing` status.  The concurrent `asyncio.gather` fan-out keeps the
calls in list (request) order, so it is a map. -/
def processToolCalls (calls : List ToolCall) : List ToolCall :=
  calls.map (fun c => executeCall (validateCall c))

/-- The record created by `schedule` for one request. -/
def mkToolCall (reg : Registry) (fc : ToolCallRequest) : ToolCall :=
  { request := fc, status := Status.validating, tool := lookupTool reg fc.name }

/-- Mirror of `schedule`: clears prior state, records each request with its looked-up
tool in `validating` status, then processes the batch. -/
def schedule (reg : Registry) (fcs : List ToolCallRequest) : List ToolCall :=
  processToolCalls (fcs.map (mkToolCall reg))

/-- The `awaiting_approval` list computed by `_process_tool_calls`. -/
def awaitingCalls (st : List ToolCall) : List ToolCall :=
  st.filter (fun c => c.status = Status.awaitingApproval)

/-- Mirror of `get_executed_results`: every call that has a response and is not
awaiting approval.  Note: the scheduler keeps no record of which results
have already been returned. -/
def getExecutedResults (st : List ToolCall) : List Part :=
  st.filterMap (fun c =>
    if c.response.isSome ∧ c.status ≠ Status.awaitingApproval then c.response
    else none)

/-- Mirror of `handle_confirmation_response`: finds the first call whose request
equals `req` and whose status is still `awaiting_approval`; approval sets
it to `executing` and executes it immediately, anything else cancels it
with a synthesized error response.  At most one call is transitioned. -/
def handleConfirmation : List ToolCall → ToolCallRequest → Outcome → List ToolCall
  | [], _, _ => []
  | c :: rest, req, o =>
    if c.request = req ∧ c.status = Status.awaitingApproval then
      (if o = Outcome.proceedOnce ∨ o = Outcome.proceedAlways then
        executeCall { c with status := Status.executing }
      else
        { c with status := Status.cancelled,
                 response := some (formatErrorResponse req
                   "Tool call was cancelled by the user.") }) :: rest
    else c :: handleConfirmation rest req o

/-- The turn's confirmation round: the awaiting list is captured once
(`awaiting_approval_calls` in `Turn.run`), a `confirmation_request` is
yielded per call in order, and each resolution invokes
`handle_confirmation_response(call["request"], outcome)` on the scheduler;
the i-th supplied outcome answers the i-th awaiting call. -/
def applyConfirmations (st : List ToolCall) (outcomes : List Outcome) : List ToolCall :=
  (((awaitingCalls st).map (fun c => c.request)).zip outcomes).foldl
    (fun s ro => handleConfirmation s ro.1 ro.2) st

/-! ### Streamed-response parsing (`Turn.run`)

One `data: ` line carries a JSON envelope
`\x7bresponse: \x7bcandidates: [\x7bcontent: \x7bparts: [...]...` — we
model the parsed envelope with every dictionary key optional (absent keys
take the `.get` defaults of the code) and `json.loads` failures as a
distinct line shape. -/

/-- The `functionCall` object of a part: `fc.get('name')` (default `None`)
and `fc.get('args', \x7b\x7d)` (default empty dict). -/
structure FCPayload where
  name : Option String
  args : Option Args
  deriving DecidableEq, Repr

/-- A raw part from a stream chunk; `functionCall` is checked first
(`elif` gives it precedence over `text` when both keys are present). -/
structure RawPart where
  functionCall : Option FCPayload
  text : Option String
  deriving DecidableEq, Repr

/-- The default part produced by `.get('parts', [\x7b\x7d])[0]` when the
key is absent: an empty dict with neither payload. -/
def emptyRawPart : RawPart := ⟨none, none⟩

structure ContentObj where
  parts : Option (List RawPart)
  deriving DecidableEq, Repr

structure Candidate where
  content : Option ContentObj
  deriving DecidableEq, Repr

structure ResponseObj where
  groundingMetadata : Option Grounding
  candidates : Option (List Candidate)
  deriving DecidableEq, Repr

structure Chunk where
  response : Option ResponseObj
  deriving DecidableEq, Repr

/-- The part-extraction expression of `Turn.run`:
`data.get('response', \x7b\x7d).get('candidates', [\x7b\x7d])[0]
.get('content', \x7b\x7d).get('parts', [\x7b\x7d])[0]`.
Indexing `[0]` into a present-but-empty list raises `IndexError`
(`Except.error ()`), which the caller catches by skipping the line. -/
def extractPart (ck : Chunk) : Except Unit RawPart :=
  let resp := ck.response.getD ⟨none, none⟩
  match resp.candidates.getD [⟨none⟩] with
  | [] => Except.error ()
  | cand :: _ =>
    let content := cand.content.getD ⟨none⟩
    match content.parts.getD [emptyRawPart] with
    | [] => Except.error ()
    | p :: _ => Except.ok p

/-- One raw line of the streamed response. -/
inductive StreamLine where
  | notData
  | malformed
  | chunk (ck : Chunk)

/-- Events yielded by `Turn.run`.  A `confirmation_request` value is the
whole pending `ToolCall` dict; its identifying payload is the request. -/
inductive Event where
  | content (s : String)
  | citations (g : Grounding)
  | confirmationRequest (req : ToolCallRequest)
  | toolCallResponse (p : Part)
  | error (msg : String)
  deriving DecidableEq, Repr

/-- Accumulator of the stream-consumption loop: collected function calls,
the text buffer, the last seen grounding metadata, and the `content`
events already yielded. -/
structure StreamAcc where
  calls : List ToolCallRequest
  text : String
  citations : Option Grounding
  events : List Event

def initAcc : StreamAcc := ⟨[], "", none, []⟩

/-- The citation capture of the loop body: if `groundingMetadata` is a key
of the chunk's response object, remember its value.  It happens before
part extraction, so a chunk whose candidate or part list is empty still
updates the citations even though the `IndexError` skips the rest. -/
def citeUpdate (acc : StreamAcc) (ck : Chunk) : StreamAcc :=
  match (ck.response.getD ⟨none, none⟩).groundingMetadata with
  | some g => { acc with citations := some g }
  | none => acc

/-- The part dispatch of the loop body: an `IndexError` from extraction
skips the line; a part with a `functionCall` key is collected with a fresh
`callId`; otherwise a part with a `text` key extends the answer buffer and
is emitted as a `content` event; a part with neither key does nothing. -/
def addContribution (acc : StreamAcc) : Except Unit RawPart → StreamAcc
  | Except.error _ => acc
  | Except.ok p =>
    match p.functionCall with
    | some fc =>
      { acc with calls := acc.calls ++
          [⟨mkCallId fc.name acc.calls.length, fc.name, fc.args.getD []⟩] }
    | none =>
      match p.text with
      | some t =>
        { acc with text := acc.text ++ t,
                   events := acc.events ++ [Event.content t] }
      | none => acc

def processLine (acc : StreamAcc) : StreamLine → StreamAcc
  | StreamLine.notData => acc
  | StreamLine.malformed => acc
  | StreamLine.chunk ck => addContribution (citeUpdate acc ck) (extractPart ck)

def processStream (lines : List StreamLine) : StreamAcc :=
  lines.foldl processLine initAcc

/-! ### The turn engine (`Turn.run`) -/

/-- One network round-trip as the turn observes it: either
`_make_api_request` (or stream consumption) raises, or it yields a list of
raw lines.  `outcomes` are the confirmation resolutions the caller
supplies, answering the yielded `confirmation_request` events in order. -/
inductive RoundTrip where
  | netError (msg : String)
  | stream (lines : List StreamLine) (outcomes : List Outcome)

def mkUserMsg (parts : List Part) : Message := ⟨Role.user, parts⟩

def mkModelMsg (parts : List Part) : Message := ⟨Role.model, parts⟩

/-- The `functionCall` part recorded in the transcript for one collected
call: `\x7b'functionCall': \x7b'name': fc['name'], 'args': fc['args']\x7d\x7d`. -/
def fcPart (r : ToolCallRequest) : Part := Part.functionCall r.name r.args

/-- Loop-control outcome of one iteration of the `while True` loop. -/
inductive TurnCtl where
  | next (hist : List Message)
  | done (hist : List Message)
  | fail

structure StepOut where
  events : List Event
  batch : List ToolCallRequest
  ctl : TurnCtl

/-- Turn completion: `self._session.history = self._turn_history`, then the
buffered answer is appended as a model message iff non-blank. -/
def commitHistory (hist : List Message) (text : String) : List Message :=
  if text.trim ≠ "" then hist ++ [mkModelMsg [Part.text text]] else hist

/-- One iteration of `Turn.run`'s loop over the working transcript `hist`:
consume the stream, yield `content`/`citations` events; if function calls
were collected, append the model's function-call message, schedule the
batch, yield a `confirmation_request` per awaiting call, resolve the
confirmations, drain executed results, and either continue with the
results appended as one user message or fall through to commit; a network
exception yields an `error` event and fails the turn. -/
def turnStep (reg : Registry) (hist : List Message) : RoundTrip → StepOut
  | RoundTrip.netError m => ⟨[Event.error m], [], TurnCtl.fail⟩
  | RoundTrip.stream lines outcomes =>
    let acc := processStream lines
    let evs := acc.events ++
      (match acc.citations with
        | some g => [Event.citations g]
        | none => [])
    if acc.calls = [] then
      ⟨evs, [], TurnCtl.done (commitHistory hist acc.text)⟩
    else
      let hist1 := hist ++ [mkModelMsg (acc.calls.map fcPart)]
      let st := schedule reg acc.calls
      let evs1 := evs ++ (awaitingCalls st).map (fun c => Event.confirmationRequest c.request)
      let st1 := applyConfirmations st outcomes
      let executed := getExecutedResults st1
      if executed = [] then
        ⟨evs1, acc.calls, TurnCtl.done (commitHistory hist1 acc.text)⟩
      else
        ⟨evs1 ++ executed.map Event.toolCallResponse, acc.calls,
          TurnCtl.next (hist1 ++ [mkUserMsg executed])⟩

/-- The turn loop given the session history `sess` and a script of round
trips; returns the yielded events, the session history after the turn
(committed on completion, `sess` itself on failure or when the script ends
mid-turn), and the list of batches handed to the scheduler. -/
def runTurnAux (reg : Registry) (sess : List Message) :
    List RoundTrip → List Message →
      List Event × List Message × List (List ToolCallRequest)
  | [], _ => ([], sess, [])
  | trip :: rest, hist =>
    let s := turnStep reg hist trip
    match s.ctl with
    | TurnCtl.next h =>
      let r := runTurnAux reg sess rest h
      (s.events ++ r.1, r.2.1, s.batch :: r.2.2)
    | TurnCtl.done h => (s.events, h, if s.batch = [] then [] else [s.batch])
    | TurnCtl.fail => (s.events, sess, [])

/-- Mirror of `Turn.run`: the working transcript starts as the session history plus
the prompt as a user message. -/
def runTurn (reg : Registry) (sess : List Message) (prompt : String)
    (trips : List RoundTrip) :
    List Event × List Message × List (List ToolCallRequest) :=
  runTurnAux reg sess trips (sess ++ [mkUserMsg [Part.text prompt]])

/-! ### The retry controller (`utils/retry.py`)

`retry_with_backoff` is a loop driven by the results of `fn()` and of the
`on_persistent_429` callback; both are scripted as lists.  Delays and
times are rationals; each attempt entry carries the `random.random()`
sample and the current UTC time the controller would observe on that
iteration. -/

/-- Parse outcome of a `Retry-After` header value: `int(...)` succeeds,
`parsedate_to_datetime` succeeds (an absolute time), or neither parse
applies. -/
inductive RAHeader where
  | seconds (n : Int)
  | httpDate (t : ℚ)
  | unparsable
  deriving DecidableEq

/-- A failure raised by the wrapped operation: an `httpx.HTTPStatusError`
with its status code and (parsed) optional `Retry-After` header, or any
other exception. -/
inductive RetryErr where
  | http (status : Nat) (retryAfter : Option RAHeader)
  | other
  deriving DecidableEq

/-- Mirror of `should_retry`: retry on 429 and on any 5xx status. -/
def shouldRetry : RetryErr → Bool
  | RetryErr.http status _ => status == 429 || (500 ≤ status && status < 600)
  | RetryErr.other => false

def is429 : RetryErr → Bool
  | RetryErr.http status _ => status == 429
  | RetryErr.other => false

/-- One scripted invocation of `fn()` with the environment samples of that
iteration. -/
structure AttemptEntry (α : Type) where
  res : Except RetryErr α
  rand : ℚ
  now : ℚ

/-- One scripted invocation of `on_persistent_429`. -/
inductive CBRes where
  | returns (b : Bool)
  | raises
  deriving DecidableEq, Repr

/-- Mirror of `RetryOptions`; `hasCallback` is whether `on_persistent_429` was
supplied. -/
structure RetryOptions where
  maxAttempts : Nat := 5
  initialDelay : ℚ := 1
  maxDelay : ℚ := 30
  hasCallback : Bool := false

/-- Observable actions of the controller: callback invocations and sleeps
(recording the unjittered base and the jittered duration). -/
inductive TraceEv where
  | fallbackCalled (r : CBRes)
  | slept (base : ℚ) (duration : ℚ)
  deriving DecidableEq

inductive RetryOutcome (α : Type) where
  | success (v : α)
  | raised (e : RetryErr)
  | raisedNone
  | scriptEnded

/-- The base delay chosen before jitter: on a 429, a parsed `Retry-After`
(integer seconds first, else HTTP-date minus current time) overrides the
current exponential delay; in every other case the exponential delay. -/
def computeBase (e : RetryErr) (curDelay : ℚ) (now : ℚ) : ℚ :=
  match e with
  | RetryErr.http status ra =>
    if status = 429 then
      match ra with
      | some (RAHeader.seconds n) => (n : ℚ)
      | some (RAHeader.httpDate t) => t - now
      | some RAHeader.unparsable => curDelay
      | none => curDelay
    else curDelay
  | RetryErr.other => curDelay

/-- The jittered sleep duration: symmetric ±50% jitter around the base,
floored at zero (`max(0, delay_s + delay_s * 0.5 * (random()*2 - 1))`). -/
def jitteredDelay (base : ℚ) (rand : ℚ) : ℚ :=
  max 0 (base + base * (1 / 2) * (rand * 2 - 1))

/-- The `raise last_exception` at loop exit: raising `None` (no attempt
ever ran) is its own failure mode. -/
def raiseLast {α : Type} : Option RetryErr → RetryOutcome α × List TraceEv
  | some e => (RetryOutcome.raised e, [])
  | none => (RetryOutcome.raisedNone, [])

/-- The `while attempt < max_attempts` loop of `retry_with_backoff`, with
state `(attempt, consecutive_429_count, current_delay_s, last_exception)`.
Returns the outcome together with the trace of callback invocations and
sleeps.  `scriptEnded` flags executions the scripts do not cover. -/
def retryGo {α : Type} (opts : RetryOptions) :
    List (AttemptEntry α) → List CBRes → Nat → Nat → ℚ → Option RetryErr →
      RetryOutcome α × List TraceEv
  | [], _, attempt, _, _, lastExc =>
    if opts.maxAttempts ≤ attempt then raiseLast lastExc
    else (RetryOutcome.scriptEnded, [])
  | entry :: rest, cbs, attempt, c429, curDelay, lastExc =>
    if opts.maxAttempts ≤ attempt then raiseLast lastExc
    else
      match entry.res with
      | Except.ok v => (RetryOutcome.success v, [])
      | Except.error e =>
        let c429' := if is429 e then c429 + 1 else 0
        if 2 ≤ c429' ∧ opts.hasCallback = true then
          match cbs with
          | [] => (RetryOutcome.scriptEnded, [])
          | cb :: cbRest =>
            if cb = CBRes.returns true then
              let r := retryGo opts rest cbRest 0 0 opts.initialDelay (some e)
              (r.1, TraceEv.fallbackCalled cb :: r.2)
            else if shouldRetry e = false ∨ opts.maxAttempts ≤ attempt + 1 then
              (RetryOutcome.raised e, [TraceEv.fallbackCalled cb])
            else
              let base := computeBase e curDelay entry.now
              let dur := jitteredDelay base entry.rand
              let r := retryGo opts rest cbRest (attempt + 1) c429'
                (min opts.maxDelay (curDelay * 2)) (some e)
              (r.1, TraceEv.fallbackCalled cb :: TraceEv.slept base dur :: r.2)
        else if shouldRetry e = false ∨ opts.maxAttempts ≤ attempt + 1 then
          (RetryOutcome.raised e, [])
        else
          let base := computeBase e curDelay entry.now
          let dur := jitteredDelay base entry.rand
          let r := retryGo opts rest cbs (attempt + 1) c429'
            (min opts.maxDelay (curDelay * 2)) (some e)
          (r.1, TraceEv.slept base dur :: r.2)

/-- Mirror of `retry_with_backoff(fn, options)`: the loop starts with `attempt = 0`,
`consecutive_429_count = 0`, `current_delay_s = initial_delay_s`,
`last_exception = None`. -/
def retryWithBackoff {α : Type} (opts : RetryOptions)
    (entries : List (AttemptEntry α)) (cbs : List CBRes) :
    RetryOutcome α × List TraceEv :=
  retryGo opts entries cbs 0 0 opts.initialDelay none

/-! ### Scheduler invariants

`Inv` is the state invariant of one scheduled call: the execute count never
exceeds one; any recorded response is a `functionResponse` part carrying the
call's own request name; and the call is either settled (has a response, not
awaiting approval) or still awaiting approval with no response and no
execution so far. -/

/-- A call is settled: it carries a response and is no longer awaiting
approval (exactly the calls `get_executed_results` returns). -/
def settled (c : ToolCall) : Prop :=
  c.response.isSome ∧ c.status ≠ Status.awaitingApproval

def Inv (c : ToolCall) : Prop :=
  c.execCount ≤ 1 ∧
  (∀ p, c.response = some p →
    ∃ pay, p = Part.functionResponse c.request.name pay) ∧
  (settled c ∨
    (c.status = Status.awaitingApproval ∧ c.response = none ∧ c.execCount = 0))

/-- The transition `handle_confirmation_response` applies to the matching
call: approve-and-execute, or cancel with a synthesized error response. -/
def resolveCall (c : ToolCall) (o : Outcome) : ToolCall :=
  if o = Outcome.proceedOnce ∨ o = Outcome.proceedAlways then
    executeCall { c with status := Status.executing }
  else
    { c with status := Status.cancelled,
             response := some (formatErrorResponse c.request
               "Tool call was cancelled by the user.") }

/-! ### Concrete objects used by counterexamples and witnesses -/

/-- A tool that needs no confirmation and succeeds. -/
def autoTool : Tool := ⟨fun _ => none, fun _ => Except.ok "ok"⟩

/-- A tool that requires confirmation and succeeds once executed. -/
def confirmTool : Tool := ⟨fun _ => some "confirm?", fun _ => Except.ok "ran"⟩

/-- A registry with one auto-approved tool and one confirming tool. -/
def regW : Registry := fun nm =>
  if nm = "auto" then some autoTool
  else if nm = "confirm" then some confirmTool
  else none

def reqAuto : ToolCallRequest := ⟨"auto-0", some "auto", []⟩

def reqConfirm : ToolCallRequest := ⟨"confirm-0", some "confirm", []⟩

def reqMissing : ToolCallRequest := ⟨"missing-1", some "missing", []⟩

/-- A well-formed stream line whose single chunk carries one functionCall
part for the named tool. -/
def fcLine (nm : String) : StreamLine :=
  StreamLine.chunk ⟨some ⟨none, some [⟨some ⟨some [⟨some ⟨some nm, none⟩, none⟩]⟩⟩]⟩⟩

/-- A rate-limit failure without a `Retry-After` header. -/
def err429 : RetryErr := RetryErr.http 429 none

/-- One scripted 429 attempt over `Nat` results. -/
def entry429 : AttemptEntry Nat := ⟨Except.error err429, 0, 0⟩

theorem digitChar_toNat {d : Nat} (h : d < 10) : (digitChar d).toNat = 48 + d := by
  interval_cases d <;> rfl

theorem isDecDigit_digitChar {d : Nat} (h : d < 10) : isDecDigit (digitChar d) = true := by
  simp [isDecDigit, digitChar_toNat h]
  omega

theorem natToDecAux_fuel :
    ∀ (f₁ f₂ n : Nat), n < f₁ → n < f₂ → natToDecAux f₁ n = natToDecAux f₂ n := by
  intro f₁
  induction f₁ using Nat.strong_induction_on with
  | _ f₁ ih =>
    intro f₂ n h₁ h₂
    match f₁, h₁ with
    | g₁ + 1, _ =>
      match f₂, h₂ with
      | g₂ + 1, _ =>
        by_cases hn : n < 10
        · simp [natToDecAux, hn]
        · have hlt : n / 10 < n := Nat.div_lt_self (by omega) (by omega)
          simp only [natToDecAux, hn, if_false]
          rw [ih g₁ (by omega) g₂ (n / 10) (by omega) (by omega)]

/-- The defining recurrence of `natToDec`, independent of fuel. -/
theorem natToDec_eq (n : Nat) :
    natToDec n = if n < 10 then [digitChar n]
      else natToDec (n / 10) ++ [digitChar (n % 10)] := by
  by_cases hn : n < 10
  · simp [natToDec, natToDecAux, hn]
  · have hlt : n / 10 < n := Nat.div_lt_self (by omega) (by omega)
    simp only [natToDec, natToDecAux, hn, if_false]
    rw [natToDecAux_fuel n (n / 10 + 1) (n / 10) (by omega) (by omega)]
    simp only [natToDecAux]

theorem natToDec_digits (n : Nat) : ∀ c ∈ natToDec n, isDecDigit c = true := by
  induction n using Nat.strong_induction_on with
  | _ n ih =>
    rw [natToDec_eq]
    by_cases hn : n < 10
    · simp [hn]
      exact isDecDigit_digitChar hn
    · have hlt : n / 10 < n := Nat.div_lt_self (by omega) (by omega)
      simp only [hn, if_false]
      intro c hc
      rcases List.mem_append.mp hc with h | h
      · exact ih _ hlt c h
      · simp at h
        subst h
        exact isDecDigit_digitChar (Nat.mod_lt _ (by omega))

theorem natToDec_ne_nil (n : Nat) : natToDec n ≠ [] := by
  rw [natToDec_eq]
  by_cases hn : n < 10 <;> simp [hn]

theorem decValFrom_append (l₁ : List Char) :
    ∀ (l₂ : List Char) (a : Nat),
      decValFrom (l₁ ++ l₂) a = decValFrom l₂ (decValFrom l₁ a) := by
  induction l₁ with
  | nil => intro l₂ a; rfl
  | cons c t ih =>
    intro l₂ a
    rw [List.cons_append]
    show decValFrom (t ++ l₂) (a * 10 + (c.toNat - 48)) = _
    rw [ih]
    rfl

theorem decValFrom_natToDec (n : Nat) :
    ∀ a, decValFrom (natToDec n) a = a * 10 ^ (natToDec n).length + n := by
  induction n using Nat.strong_induction_on with
  | _ n ih =>
    intro a
    rw [natToDec_eq]
    by_cases hn : n < 10
    · simp only [hn, if_true]
      show a * 10 + ((digitChar n).toNat - 48)
            = a * 10 ^ (List.length [digitChar n]) + n
      simp only [digitChar_toNat hn, List.length_cons, List.length_nil, pow_one]
      omega
    · have hlt : n / 10 < n := Nat.div_lt_self (by omega) (by omega)
      simp only [hn, if_false]
      rw [decValFrom_append, ih _ hlt a]
      have hm : (digitChar (n % 10)).toNat = 48 + n % 10 :=
        digitChar_toNat (Nat.mod_lt _ (by omega))
      show (a * 10 ^ (natToDec (n / 10)).length + n / 10) * 10
            + ((digitChar (n % 10)).toNat - 48) = _
      simp only [hm, List.length_append, List.length_cons, List.length_nil,
        Nat.zero_add, pow_succ]
      generalize (10 : Nat) ^ (natToDec (n / 10)).length = P
      have hmul : (a * P + n / 10) * 10 = a * (P * 10) + n / 10 * 10 := by ring
      rw [hmul]
      omega

theorem natToDec_injective : Function.Injective natToDec := by
  intro m n h
  have hm := decValFrom_natToDec m 0
  have hn := decValFrom_natToDec n 0
  rw [h] at hm
  simp only [Nat.zero_mul, Nat.zero_add] at hm hn
  omega

theorem takeWhile_append_cons (p : Char → Bool) (l : List Char) (x : Char)
    (t : List Char) (hl : ∀ a ∈ l, p a = true) (hx : p x = false) :
    List.takeWhile p (l ++ x :: t) = l := by
  induction l with
  | nil => simp [List.takeWhile, hx]
  | cons c cs ih =>
    have hc : p c = true := hl c (by simp)
    simp only [List.cons_append, List.takeWhile, hc, List.cons.injEq, true_and]
    exact ih (fun a ha => hl a (by simp [ha]))

theorem digitSuffix_append_dash (s d : List Char)
    (hd : ∀ c ∈ d, isDecDigit c = true) :
    digitSuffix (s ++ '-' :: d) = d := by
  unfold digitSuffix
  have hrev : (s ++ '-' :: d).reverse = d.reverse ++ '-' :: s.reverse := by
    simp [List.reverse_append]
  rw [hrev, takeWhile_append_cons _ _ _ _ (fun a ha => hd a (by simpa using ha))
    (by simp [isDecDigit])]
  simp

theorem mkCallId_data (nm : Option String) (idx : Nat) :
    (mkCallId nm idx).data = (nm.getD "unknown").data ++ '-' :: natToDec idx := by
  have h1 : ∀ (a b : String), (a ++ b).data = a.data ++ b.data := fun a b => rfl
  show ((nm.getD "unknown" ++ "-") ++ String.mk (natToDec idx)).data = _
  rw [h1, h1]
  simp

/-- Distinct ordinal indices produce distinct `callId`s, whatever the two
tool names are: the decimal digits after the final dash recover the index. -/
theorem mkCallId_inj_idx {nm₁ nm₂ : Option String} {i j : Nat}
    (h : mkCallId nm₁ i = mkCallId nm₂ j) : i = j := by
  have hdata : (mkCallId nm₁ i).data = (mkCallId nm₂ j).data := by rw [h]
  rw [mkCallId_data, mkCallId_data] at hdata
  have h₁ := digitSuffix_append_dash (nm₁.getD "unknown").data (natToDec i)
    (natToDec_digits i)
  have h₂ := digitSuffix_append_dash (nm₂.getD "unknown").data (natToDec j)
    (natToDec_digits j)
  rw [hdata] at h₁
  rw [h₂] at h₁
  exact natToDec_injective h₁.symm

theorem inv_schedule (reg : Registry) (fc : ToolCallRequest) :
    Inv (executeCall (validateCall (mkToolCall reg fc))) ∧
    (executeCall (validateCall (mkToolCall reg fc))).request = fc := by
  cases h : lookupTool reg fc.name with
  | none =>
    have h1 : executeCall (validateCall (mkToolCall reg fc)) =
        { request := fc, status := Status.error, tool := none,
          confirmationDetails := none,
          response := some (formatErrorResponse fc "Tool not found."),
          execCount := 0 } := by
      simp [mkToolCall, validateCall, executeCall, h]
    rw [h1]
    refine ⟨⟨by simp, ?_, Or.inl ⟨by simp, by simp⟩⟩, rfl⟩
    intro p hp
    simp only [Option.some.injEq] at hp
    exact ⟨_, hp.symm⟩
  | some t =>
    cases hc : t.shouldConfirmExecute fc.args with
    | some d =>
      have h1 : executeCall (validateCall (mkToolCall reg fc)) =
          { request := fc, status := Status.awaitingApproval, tool := some t,
            confirmationDetails := some d, response := none, execCount := 0 } := by
        simp [mkToolCall, validateCall, executeCall, h, hc]
      rw [h1]
      refine ⟨⟨by simp, ?_, Or.inr ⟨rfl, rfl, rfl⟩⟩, rfl⟩
      intro p hp
      simp at hp
    | none =>
      cases he : t.execute fc.args with
      | ok r =>
        have h1 : executeCall (validateCall (mkToolCall reg fc)) =
            { request := fc, status := Status.success, tool := some t,
              confirmationDetails := none,
              response := some (formatSuccessResponse fc r), execCount := 1 } := by
          simp [mkToolCall, validateCall, executeCall, h, hc, he]
        rw [h1]
        refine ⟨⟨by simp, ?_, Or.inl ⟨by simp, by simp⟩⟩, rfl⟩
        intro p hp
        simp only [Option.some.injEq] at hp
        exact ⟨_, hp.symm⟩
      | error m =>
        have h1 : executeCall (validateCall (mkToolCall reg fc)) =
            { request := fc, status := Status.error, tool := some t,
              confirmationDetails := none,
              response := some (formatErrorResponse fc m), execCount := 1 } := by
          simp [mkToolCall, validateCall, executeCall, h, hc, he]
        rw [h1]
        refine ⟨⟨by simp, ?_, Or.inl ⟨by simp, by simp⟩⟩, rfl⟩
        intro p hp
        simp only [Option.some.injEq] at hp
        exact ⟨_, hp.symm⟩

theorem inv_schedule_all (reg : Registry) (fcs : List ToolCallRequest) :
    ∀ c ∈ schedule reg fcs, Inv c := by
  intro c hc
  unfold schedule processToolCalls at hc
  rw [List.map_map, List.mem_map] at hc
  obtain ⟨fc, _, hfc⟩ := hc
  rw [← hfc]
  exact (inv_schedule reg fc).1

theorem schedule_map_request (reg : Registry) (fcs : List ToolCallRequest) :
    (schedule reg fcs).map (fun c => c.request) = fcs := by
  unfold schedule processToolCalls
  rw [List.map_map, List.map_map]
  have h : ∀ fc ∈ fcs,
      (((fun c => c.request) ∘ fun c => executeCall (validateCall c)) ∘
        mkToolCall reg) fc = id fc :=
    fun fc _ => (inv_schedule reg fc).2
  rw [List.map_congr_left h, List.map_id]

theorem executeCall_request (c : ToolCall) : (executeCall c).request = c.request := by
  unfold executeCall
  split
  · rfl
  · cases h : c.tool with
    | none => simp
    | some t => cases he : t.execute c.request.args <;> simp [he]

theorem executeCall_settles (c : ToolCall) (hr : c.response = none)
    (hs : c.status = Status.executing) (he0 : c.execCount = 0) :
    settled (executeCall c) ∧ Inv (executeCall c) ∧
      (executeCall c).request = c.request := by
  have hguard : ¬(c.status ≠ Status.executing ∨ c.response.isSome = true) := by
    simp [hs, hr]
  unfold executeCall
  rw [if_neg hguard]
  split
  · split
    · refine ⟨⟨by simp, by simp⟩, ⟨by simp [he0], ?_, Or.inl ⟨by simp, by simp⟩⟩, rfl⟩
      intro p hp
      simp only [Option.some.injEq] at hp
      exact ⟨_, hp.symm⟩
    · refine ⟨⟨by simp, by simp⟩, ⟨by simp [he0], ?_, Or.inl ⟨by simp, by simp⟩⟩, rfl⟩
      intro p hp
      simp only [Option.some.injEq] at hp
      exact ⟨_, hp.symm⟩
  · refine ⟨⟨by simp, by simp⟩, ⟨by simp [he0], ?_, Or.inl ⟨by simp, by simp⟩⟩, rfl⟩
    intro p hp
    simp only [Option.some.injEq] at hp
    exact ⟨_, hp.symm⟩

theorem resolveCall_settles (c : ToolCall) (o : Outcome) (hInv : Inv c)
    (hs : c.status = Status.awaitingApproval) :
    settled (resolveCall c o) ∧ Inv (resolveCall c o) ∧
      (resolveCall c o).request = c.request := by
  obtain ⟨hcnt, hname, hdisj⟩ := hInv
  have hrn : c.response = none ∧ c.execCount = 0 := by
    rcases hdisj with ⟨_, hne⟩ | ⟨_, hr, hcnt0⟩
    · exact absurd hs hne
    · exact ⟨hr, hcnt0⟩
  unfold resolveCall
  split
  · have h := executeCall_settles { c with status := Status.executing }
      (by simp [hrn.1]) rfl (by simp [hrn.2])
    simpa using h
  · refine ⟨⟨by simp, by simp⟩, ⟨?_, ?_, Or.inl ⟨by simp, by simp⟩⟩, rfl⟩
    · exact hcnt
    · intro p hp
      simp only [Option.some.injEq] at hp
      exact ⟨_, hp.symm⟩

theorem handleConf_first_awaiting (pre : List ToolCall) (c : ToolCall)
    (post : List ToolCall) (o : Outcome)
    (hpre : ∀ x ∈ pre, x.status ≠ Status.awaitingApproval)
    (hc : c.status = Status.awaitingApproval) :
    handleConfirmation (pre ++ c :: post) c.request o =
      pre ++ resolveCall c o :: post := by
  induction pre with
  | nil =>
    rw [List.nil_append, List.nil_append]
    conv_lhs => rw [handleConfirmation]
    rw [if_pos ⟨rfl, hc⟩]
    rfl
  | cons x pre ih =>
    have hx : ¬(x.request = c.request ∧ x.status = Status.awaitingApproval) := by
      intro hm
      exact hpre x (by simp) hm.2
    have step : handleConfirmation ((x :: pre) ++ c :: post) c.request o
        = x :: handleConfirmation (pre ++ c :: post) c.request o := by
      rw [List.cons_append]
      conv_lhs => rw [handleConfirmation]
      rw [if_neg hx]
    rw [step, ih (fun y hy => hpre y (List.mem_cons_of_mem _ hy)), List.cons_append]

/-- A call that matches no transition is unchanged; more generally
`handle_confirmation_response` leaves everything except the first matching
awaiting call untouched and preserves the invariant of the one it settles. -/
theorem handleConf_inv (st : List ToolCall) (req : ToolCallRequest) (o : Outcome)
    (h : ∀ c ∈ st, Inv c) : ∀ c ∈ handleConfirmation st req o, Inv c := by
  induction st with
  | nil => intro c hc; simp [handleConfirmation] at hc
  | cons x rest ih =>
    intro c hc
    unfold handleConfirmation at hc
    by_cases hm : x.request = req ∧ x.status = Status.awaitingApproval
    · rw [if_pos hm] at hc
      rcases List.mem_cons.mp hc with hh | ht
      · have hx := h x (by simp)
        obtain ⟨hreq, hstat⟩ := hm
        subst hh
        rw [← hreq]
        exact (resolveCall_settles x o hx hstat).2.1
      · exact h c (by simp [ht])
    · rw [if_neg hm] at hc
      rcases List.mem_cons.mp hc with hh | ht
      · subst hh; exact h c (by simp)
      · exact ih (fun y hy => h y (by simp [hy])) c ht

theorem handleConf_map_request (st : List ToolCall) (req : ToolCallRequest)
    (o : Outcome) :
    (handleConfirmation st req o).map (fun c => c.request) =
      st.map (fun c => c.request) := by
  induction st with
  | nil => rfl
  | cons x rest ih =>
    unfold handleConfirmation
    by_cases hm : x.request = req ∧ x.status = Status.awaitingApproval
    · rw [if_pos hm]
      simp only [List.map_cons, List.cons.injEq]
      constructor
      · split
        · rw [executeCall_request]
        · rfl
      · trivial

    · rw [if_neg hm]
      simp only [List.map_cons, ih]

theorem foldl_handleConf_inv (l : List (ToolCallRequest × Outcome)) :
    ∀ st : List ToolCall, (∀ c ∈ st, Inv c) →
      ∀ c ∈ l.foldl (fun s ro => handleConfirmation s ro.1 ro.2) st, Inv c := by
  induction l with
  | nil => intro st h c hc; exact h c hc
  | cons ro rest ih =>
    intro st h c hc
    exact ih (handleConfirmation st ro.1 ro.2)
      (handleConf_inv st ro.1 ro.2 h) c hc

theorem foldl_handleConf_map_request (l : List (ToolCallRequest × Outcome)) :
    ∀ st : List ToolCall,
      (l.foldl (fun s ro => handleConfirmation s ro.1 ro.2) st).map
          (fun c => c.request) = st.map (fun c => c.request) := by
  induction l with
  | nil => intro st; rfl
  | cons ro rest ih =>
    intro st
    rw [List.foldl_cons, ih, handleConf_map_request]

theorem applyConf_map_request (st : List ToolCall) (os : List Outcome) :
    (applyConfirmations st os).map (fun c => c.request) =
      st.map (fun c => c.request) := by
  unfold applyConfirmations
  exact foldl_handleConf_map_request _ st

theorem awaitingCalls_decomp (st : List ToolCall) (a : ToolCall)
    (tl : List ToolCall) (h : awaitingCalls st = a :: tl) :
    ∃ pre post, st = pre ++ a :: post ∧
      (∀ x ∈ pre, x.status ≠ Status.awaitingApproval) ∧
      awaitingCalls post = tl := by
  induction st with
  | nil => simp [awaitingCalls] at h
  | cons x rest ih =>
    by_cases hx : x.status = Status.awaitingApproval
    · have hfil : awaitingCalls (x :: rest) = x :: awaitingCalls rest := by
        simp [awaitingCalls, List.filter_cons, hx]
      rw [hfil] at h
      obtain ⟨h1, h2⟩ := List.cons.inj h
      exact ⟨[], rest, by rw [h1, List.nil_append], by simp, h2⟩
    · have hfil : awaitingCalls (x :: rest) = awaitingCalls rest := by
        simp [awaitingCalls, List.filter_cons, hx]
      rw [hfil] at h
      obtain ⟨pre, post, hst, hpre, hpost⟩ := ih h
      refine ⟨x :: pre, post, by rw [List.cons_append, hst], ?_, hpost⟩
      intro y hy
      rcases List.mem_cons.mp hy with hh | ht
      · rw [hh]; exact hx
      · exact hpre y ht

theorem awaitingCalls_eq_nil (l : List ToolCall)
    (h : ∀ x ∈ l, x.status ≠ Status.awaitingApproval) :
    awaitingCalls l = [] := by
  unfold awaitingCalls
  rw [List.filter_eq_nil_iff]
  intro a ha
  simp only [decide_eq_true_eq]
  exact h a ha

theorem applyConf_all_settled :
    ∀ (os : List Outcome) (st : List ToolCall),
      (∀ c ∈ st, Inv c) → (awaitingCalls st).length ≤ os.length →
      ∀ c ∈ applyConfirmations st os, settled c ∧ Inv c := by
  intro os
  induction os with
  | nil =>
    intro st hInv hlen c hc
    have hz : applyConfirmations st [] = st := by
      simp [applyConfirmations]
    rw [hz] at hc
    have hcInv := hInv c hc
    rcases hcInv.2.2 with hset | ⟨hstat, _, _⟩
    · exact ⟨hset, hcInv⟩
    · exfalso
      have hmem : c ∈ awaitingCalls st := by
        simp only [awaitingCalls, List.mem_filter, decide_eq_true_eq]
        exact ⟨hc, hstat⟩
      have h0 : awaitingCalls st = [] :=
        List.eq_nil_of_length_eq_zero (Nat.le_zero.mp hlen)
      rw [h0] at hmem
      simp at hmem
  | cons o os ih =>
    intro st hInv hlen c hc
    cases ha : awaitingCalls st with
    | nil =>
      have hz : applyConfirmations st (o :: os) = st := by
        simp [applyConfirmations, ha]
      rw [hz] at hc
      have hcInv := hInv c hc
      rcases hcInv.2.2 with hset | ⟨hstat, _, _⟩
      · exact ⟨hset, hcInv⟩
      · exfalso
        have hmem : c ∈ awaitingCalls st := by
          simp only [awaitingCalls, List.mem_filter, decide_eq_true_eq]
          exact ⟨hc, hstat⟩
        rw [ha] at hmem
        simp at hmem
    | cons a tl =>
      obtain ⟨pre, post, hst, hpre, hpost⟩ := awaitingCalls_decomp st a tl ha
      have haw : a.status = Status.awaitingApproval := by
        have hmem : a ∈ awaitingCalls st := by rw [ha]; simp
        simp only [awaitingCalls, List.mem_filter, decide_eq_true_eq] at hmem
        exact hmem.2
      have haInv : Inv a := hInv a (by rw [hst]; simp)
      have hres := resolveCall_settles a o haInv haw
      have hst' : handleConfirmation st a.request o =
          pre ++ resolveCall a o :: post := by
        rw [hst]
        exact handleConf_first_awaiting pre a post o hpre haw
      have haw' : awaitingCalls (pre ++ resolveCall a o :: post) = tl := by
        unfold awaitingCalls
        rw [List.filter_append, List.filter_cons]
        have h1 : List.filter
            (fun c => decide (c.status = Status.awaitingApproval)) pre = [] :=
          awaitingCalls_eq_nil pre hpre
        have h2 : (decide ((resolveCall a o).status = Status.awaitingApproval)) = false := by
          simp only [decide_eq_false_iff_not]
          exact hres.1.2
        rw [h1, h2]
        simpa [awaitingCalls] using hpost
      have hInv' : ∀ x ∈ pre ++ resolveCall a o :: post, Inv x := by
        rw [← hst']
        exact handleConf_inv st a.request o hInv
      have hlen' : (awaitingCalls (pre ++ resolveCall a o :: post)).length ≤
          os.length := by
        rw [haw']
        have := hlen
        rw [ha] at this
        simpa using Nat.le_of_succ_le_succ this
      have hunf : applyConfirmations st (o :: os) =
          applyConfirmations (pre ++ resolveCall a o :: post) os := by
        unfold applyConfirmations
        rw [ha, haw']
        simp only [List.map_cons, List.zip_cons_cons, List.foldl_cons]
        rw [hst']
      rw [hunf] at hc
      exact ih (pre ++ resolveCall a o :: post) hInv' hlen' c hc

theorem getExecutedResults_forall₂ (st : List ToolCall)
    (h : ∀ c ∈ st, settled c ∧ Inv c) :
    List.Forall₂ (fun c p => ∃ pay, p = Part.functionResponse c.request.name pay)
      st (getExecutedResults st) := by
  induction st with
  | nil => simp [getExecutedResults]
  | cons c rest ih =>
    have hc := h c (by simp)
    obtain ⟨⟨hsome, hnaw⟩, hInv⟩ := hc
    obtain ⟨p, hp⟩ := Option.isSome_iff_exists.mp hsome
    have hcond : (c.response.isSome ∧ c.status ≠ Status.awaitingApproval) := ⟨hsome, hnaw⟩
    have hstep : getExecutedResults (c :: rest) = p :: getExecutedResults rest := by
      unfold getExecutedResults
      rw [List.filterMap_cons]
      rw [if_pos hcond, hp]
    rw [hstep]
    exact List.Forall₂.cons (hInv.2.1 p hp) (ih (fun x hx => h x (by simp [hx])))

theorem getExecutedResults_length_eq (st : List ToolCall)
    (h : ∀ c ∈ st, settled c ∧ Inv c) :
    (getExecutedResults st).length = st.length :=
  ((getExecutedResults_forall₂ st h).length_eq).symm

theorem citeUpdate_calls (acc : StreamAcc) (ck : Chunk) :
    (citeUpdate acc ck).calls = acc.calls := by
  unfold citeUpdate
  split <;> rfl

theorem addContribution_calls (acc : StreamAcc) (r : Except Unit RawPart) :
    (addContribution acc r).calls = acc.calls ∨
    ∃ nm args, (addContribution acc r).calls =
      acc.calls ++ [⟨mkCallId nm acc.calls.length, nm, args⟩] := by
  cases r with
  | error u => exact Or.inl rfl
  | ok p =>
    unfold addContribution
    rcases hfc : p.functionCall with _ | fc
    · rcases htx : p.text with _ | t <;> simp [hfc, htx]
    · simp only [hfc]
      exact Or.inr ⟨fc.name, fc.args.getD [], rfl⟩

theorem callId_inv_cast {cs ds : List ToolCallRequest} (hcd : ds = cs)
    (h : ∀ i (hi : i < cs.length),
      ∃ nm, (cs.get ⟨i, hi⟩).callId = mkCallId nm i) :
    ∀ i (hi : i < ds.length),
      ∃ nm, (ds.get ⟨i, hi⟩).callId = mkCallId nm i := by
  subst hcd
  exact h

theorem callId_inv_snoc (cs : List ToolCallRequest) (nm : Option String)
    (args : Args)
    (h : ∀ i (hi : i < cs.length),
      ∃ nm, (cs.get ⟨i, hi⟩).callId = mkCallId nm i) :
    ∀ i (hi : i < (cs ++
        [({ callId := mkCallId nm cs.length, name := nm, args := args } :
          ToolCallRequest)]).length),
      ∃ nm', ((cs ++
        [({ callId := mkCallId nm cs.length, name := nm, args := args } :
          ToolCallRequest)]).get ⟨i, hi⟩).callId = mkCallId nm' i := by
  intro i hi
  have hlen : i < cs.length + 1 := by simpa using hi
  by_cases hlt : i < cs.length
  · obtain ⟨nm', hnm⟩ := h i hlt
    refine ⟨nm', ?_⟩
    simp only [List.get_eq_getElem, List.getElem_append_left hlt]
    simpa [List.get_eq_getElem] using hnm
  · have hieq : i = cs.length := by omega
    subst hieq
    refine ⟨nm, ?_⟩
    simp [List.get_eq_getElem, List.getElem_concat_length]

theorem processLine_callId_inv (acc : StreamAcc) (l : StreamLine)
    (h : ∀ i (hi : i < acc.calls.length),
      ∃ nm, (acc.calls.get ⟨i, hi⟩).callId = mkCallId nm i) :
    ∀ i (hi : i < (processLine acc l).calls.length),
      ∃ nm, ((processLine acc l).calls.get ⟨i, hi⟩).callId = mkCallId nm i := by
  cases l with
  | notData => exact h
  | malformed => exact h
  | chunk ck =>
    have hcite := citeUpdate_calls acc ck
    rcases addContribution_calls (citeUpdate acc ck) (extractPart ck) with
      heq | ⟨nm, args, heq⟩
    · have hcalls : (processLine acc (StreamLine.chunk ck)).calls = acc.calls := by
        show (addContribution (citeUpdate acc ck) (extractPart ck)).calls = _
        rw [heq, hcite]
      exact callId_inv_cast hcalls h
    · have hcalls : (processLine acc (StreamLine.chunk ck)).calls =
          acc.calls ++ [⟨mkCallId nm acc.calls.length, nm, args⟩] := by
        show (addContribution (citeUpdate acc ck) (extractPart ck)).calls = _
        rw [heq, hcite]
      exact callId_inv_cast hcalls (callId_inv_snoc acc.calls nm args h)

theorem foldl_processLine_callId_inv (lines : List StreamLine) :
    ∀ acc : StreamAcc,
      (∀ i (hi : i < acc.calls.length),
        ∃ nm, (acc.calls.get ⟨i, hi⟩).callId = mkCallId nm i) →
      ∀ i (hi : i < (lines.foldl processLine acc).calls.length),
        ∃ nm, ((lines.foldl processLine acc).calls.get ⟨i, hi⟩).callId
          = mkCallId nm i := by
  induction lines with
  | nil => intro acc h; exact h
  | cons l rest ih =>
    intro acc h
    exact ih (processLine acc l) (processLine_callId_inv acc l h)

/-! ### The claims -/

/-- C1: for one batch of requested tool calls, once the turn's confirmation
protocol has resolved every awaiting call (one outcome per yielded
`confirmation_request`), the drain returns exactly one `functionResponse`
part per requested `functionCall` — including a call whose tool is not
found (immediate error response) and a call whose confirmation is
cancelled (synthesized cancellation response); no call yields more than
one part.  These are precisely the parts appended to the transcript as the
batch's user message. -/
theorem c1_one_response_per_call (reg : Registry) (fcs : List ToolCallRequest)
    (os : List Outcome)
    (hos : (awaitingCalls (schedule reg fcs)).length ≤ os.length) :
    (getExecutedResults (applyConfirmations (schedule reg fcs) os)).length
      = fcs.length := by
  have hset := applyConf_all_settled os (schedule reg fcs)
    (inv_schedule_all reg fcs) hos
  rw [getExecutedResults_length_eq _ hset]
  have hmap := applyConf_map_request (schedule reg fcs) os
  rw [schedule_map_request] at hmap
  calc (applyConfirmations (schedule reg fcs) os).length
      = ((applyConfirmations (schedule reg fcs) os).map
          (fun c => c.request)).length := (List.length_map _ _).symm
    _ = fcs.length := by rw [hmap]

theorem c1_witness :
    (awaitingCalls (schedule regW [reqConfirm, reqMissing])).length
        ≤ [Outcome.cancel].length
    ∧ (getExecutedResults (applyConfirmations
        (schedule regW [reqConfirm, reqMissing]) [Outcome.cancel])).length = 2 :=
  ⟨by decide,
    c1_one_response_per_call regW [reqConfirm, reqMissing] [Outcome.cancel]
      (by decide)⟩

/-- C3 counterexample: in a turn of two round-trips that each request the
tool `auto` once, both batches assign the same `callId` string `auto-0` —
the ordinal restarts at each round-trip because `function_calls` is reset
at the top of the loop — so the `callId` assigned to a request is not
unique within the turn and is reused across round-trips, contrary to the
claim. -/
theorem c3_counterexample :
    ((runTurn regW [] "p" [RoundTrip.stream [fcLine "auto"] [],
        RoundTrip.stream [fcLine "auto"] []]).2.2).map
      (fun b => b.map (fun r => r.callId)) = [["auto-0"], ["auto-0"]] := by
  rfl

/-- C3 amended: the `callId`s assigned to the requests of a single
round-trip batch are pairwise distinct (name plus ordinal index; the
decimal suffix after the final dash recovers the index), but a `callId`
may be reused by a later round-trip of the same turn. -/
theorem c3_callIds_unique_within_batch (lines : List StreamLine) :
    ((processStream lines).calls).Pairwise
      (fun r₁ r₂ => r₁.callId ≠ r₂.callId) := by
  show ((lines.foldl processLine initAcc).calls).Pairwise
    (fun r₁ r₂ => r₁.callId ≠ r₂.callId)
  have hinv := foldl_processLine_callId_inv lines initAcc
    (by intro i hi; simp [initAcc] at hi)
  rw [List.pairwise_iff_getElem]
  intro i j hi hj hij
  obtain ⟨nm₁, h₁⟩ := hinv i hi
  obtain ⟨nm₂, h₂⟩ := hinv j hj
  intro hcontra
  simp only [List.get_eq_getElem] at h₁ h₂
  rw [hcontra, h₂] at h₁
  exact absurd (mkCallId_inj_idx h₁) (by omega)

/-- C4 counterexample: `get_executed_results` keeps no record of which
results were already returned — it is a pure read of the scheduler's call
list.  With one successfully executed call and no intervening state
change, the drain returns the call's response and an immediately repeated
drain on the same state returns the very same response again, so two
successive drains do return the same result twice, contrary to the claim. -/
theorem c4_counterexample :
    getExecutedResults (schedule regW [reqAuto])
        = [Part.functionResponse (some "auto") (RespPayload.content "ok")]
    ∧ Part.functionResponse (some "auto") (RespPayload.content "ok")
        ∈ getExecutedResults (schedule regW [reqAuto]) := by
  constructor
  · rfl
  · exact List.mem_singleton.mpr rfl

/-- C4 amended: every drain returns the response of every call that has
one and is not awaiting approval — terminal results are never removed from
the state, so successive drains return the same list rather than only the
not-yet-drained results; `Turn.run` relies on calling the drain exactly
once per batch. -/
theorem c4_drain_returns_all_terminal (st : List ToolCall) (c : ToolCall)
    (p : Part) (hmem : c ∈ st) (hp : c.response = some p)
    (hnaw : c.status ≠ Status.awaitingApproval) :
    p ∈ getExecutedResults st := by
  unfold getExecutedResults
  rw [List.mem_filterMap]
  refine ⟨c, hmem, ?_⟩
  rw [if_pos ⟨by simp [hp], hnaw⟩]
  exact hp

theorem c4_witness :
    Part.functionResponse (some "auto") (RespPayload.content "ok")
      ∈ getExecutedResults (schedule regW [reqAuto]) :=
  c4_drain_returns_all_terminal (schedule regW [reqAuto])
    { request := reqAuto, status := Status.success, tool := some autoTool,
      confirmationDetails := none,
      response := some (Part.functionResponse (some "auto")
        (RespPayload.content "ok")),
      execCount := 1 }
    (Part.functionResponse (some "auto") (RespPayload.content "ok"))
    (List.mem_singleton.mpr rfl) rfl (by decide)

/-- C5: a network-layer exception that escapes the retry controller, at
any iteration of the turn loop (any working transcript `hist`, any
remaining round-trip script `rest`), makes the turn yield exactly one
`error` event carrying the exception's message and terminate; the session
history returned is exactly `sess`, the pre-turn history — the working
transcript, including any messages appended during earlier round-trips of
the failed turn, is not committed. -/
theorem c5_net_error_commits_nothing (reg : Registry) (sess hist : List Message)
    (m : String) (rest : List RoundTrip) :
    runTurnAux reg sess (RoundTrip.netError m :: rest) hist
      = ([Event.error m], sess, []) := by
  rfl

/-- C8: for a round-trip whose stream yields a non-empty batch of function
calls, with every awaiting confirmation resolved, the turn appends exactly
two messages in causal order — first the model message whose parts are the
batch's `functionCall` parts in collection order, then the user message
whose parts are the `functionResponse` parts — and the i-th response part
carries the name of the i-th request: results are flushed in original
request order (the scheduler stores calls in request order and the
concurrent fan-out never reorders the list), regardless of completion
order. -/
theorem c8_transcript_order (reg : Registry) (hist : List Message)
    (lines : List StreamLine) (os : List Outcome)
    (hne : (processStream lines).calls ≠ [])
    (hos : (awaitingCalls (schedule reg (processStream lines).calls)).length
      ≤ os.length) :
    ∃ resps,
      (turnStep reg hist (RoundTrip.stream lines os)).ctl =
        TurnCtl.next (hist ++
          [mkModelMsg ((processStream lines).calls.map fcPart),
            mkUserMsg resps])
      ∧ List.Forall₂ (fun r p => ∃ pay, p = Part.functionResponse r.name pay)
          (processStream lines).calls resps := by
  have hset := applyConf_all_settled os (schedule reg (processStream lines).calls)
    (inv_schedule_all reg _) hos
  have hf2 := getExecutedResults_forall₂ _ hset
  have hmap : (applyConfirmations (schedule reg (processStream lines).calls) os).map
      (fun c => c.request) = (processStream lines).calls := by
    rw [applyConf_map_request, schedule_map_request]
  have hf2' : List.Forall₂ (fun r p => ∃ pay, p = Part.functionResponse r.name pay)
      (processStream lines).calls
      (getExecutedResults (applyConfirmations
        (schedule reg (processStream lines).calls) os)) := by
    have hstep := (List.forall₂_map_left_iff
      (R := fun r p => ∃ pay, p = Part.functionResponse r.name pay)
      (f := fun c : ToolCall => c.request)).mpr hf2
    rw [hmap] at hstep
    exact hstep
  have hlen := List.Forall₂.length_eq hf2'
  have hexec : getExecutedResults (applyConfirmations
      (schedule reg (processStream lines).calls) os) ≠ [] := by
    intro h0
    rw [h0] at hlen
    simp only [List.length_nil] at hlen
    exact hne (List.eq_nil_of_length_eq_zero hlen)
  refine ⟨_, ?_, hf2'⟩
  simp only [turnStep]
  rw [if_neg hne, if_neg hexec]
  simp [List.append_assoc]

theorem c8_witness :
    ∃ resps,
      (turnStep regW [] (RoundTrip.stream [fcLine "confirm"]
          [Outcome.proceedOnce])).ctl =
        TurnCtl.next ([] ++
          [mkModelMsg ((processStream [fcLine "confirm"]).calls.map fcPart),
            mkUserMsg resps])
      ∧ List.Forall₂ (fun r p => ∃ pay, p = Part.functionResponse r.name pay)
          (processStream [fcLine "confirm"]).calls resps :=
  c8_transcript_order regW [] [fcLine "confirm"] [Outcome.proceedOnce]
    (by decide) (by decide)

/-- C9: the capability's `execute` runs at most once per scheduled call,
whatever sequence of confirmation responses — including repeated responses
for the same request — is delivered to the scheduler afterwards:
`_execute_call` refuses a call that is not in `executing` status or that
already has a response, and `handle_confirmation_response` only
transitions a call still in `awaiting_approval`.  `execCount` is the ghost
count of `execute` invocations on the call. -/
theorem c9_execute_at_most_once (reg : Registry) (fcs : List ToolCallRequest)
    (actions : List (ToolCallRequest × Outcome)) (c : ToolCall)
    (hc : c ∈ actions.foldl (fun s ro => handleConfirmation s ro.1 ro.2)
      (schedule reg fcs)) :
    c.execCount ≤ 1 :=
  (foldl_handleConf_inv actions (schedule reg fcs)
    (inv_schedule_all reg fcs) c hc).1

theorem c9_witness :
    ({ request := reqConfirm, status := Status.success, tool := some confirmTool,
       confirmationDetails := some "confirm?",
       response := some (Part.functionResponse (some "confirm")
         (RespPayload.content "ran")),
       execCount := 1 } : ToolCall).execCount ≤ 1 :=
  c9_execute_at_most_once regW [reqConfirm]
    [(reqConfirm, Outcome.proceedOnce), (reqConfirm, Outcome.proceedOnce)]
    _ (List.mem_singleton.mpr rfl)

/-- C10: a well-formed stream chunk contributes only the first part of its
first candidate: extraction returns exactly that part, the whole line
processing is unchanged when every later part and every later candidate is
dropped (so their `text` or `functionCall` payloads are neither emitted
nor collected), and a chunk with a present-but-empty candidate list is
skipped without any error — its grounding metadata is still recorded. -/
theorem c10_only_first_part_of_first_candidate :
    (∀ (g : Option Grounding) (p : RawPart) (ps : List RawPart)
        (rest : List Candidate),
      extractPart ⟨some ⟨g, some (⟨some ⟨some (p :: ps)⟩⟩ :: rest)⟩⟩
        = Except.ok p)
    ∧ (∀ (acc : StreamAcc) (g : Option Grounding) (p : RawPart)
        (ps : List RawPart) (rest : List Candidate),
      processLine acc (StreamLine.chunk
          ⟨some ⟨g, some (⟨some ⟨some (p :: ps)⟩⟩ :: rest)⟩⟩)
        = processLine acc (StreamLine.chunk ⟨some ⟨g, some [⟨some ⟨some [p]⟩⟩]⟩⟩))
    ∧ (∀ (acc : StreamAcc) (g : Grounding),
      processLine acc (StreamLine.chunk ⟨some ⟨some g, some []⟩⟩)
        = { acc with citations := some g }) :=
  ⟨fun _ _ _ _ => rfl, fun _ _ _ _ _ => rfl, fun _ _ => rfl⟩

theorem is429_shouldRetry {e : RetryErr} (h : is429 e = true) :
    shouldRetry e = true := by
  cases e with
  | http s ra =>
    simp only [is429, beq_iff_eq] at h
    simp [shouldRetry, h]
  | other => simp [is429] at h

theorem shouldRetry_false_is429 {e : RetryErr} (h : shouldRetry e = false) :
    is429 e = false := by
  cases h429 : is429 e
  · rfl
  · rw [is429_shouldRetry h429] at h
    exact absurd h (by simp)

/-- C2: whenever the consecutive-429 count reaches 2 (the incoming count
is at least 1 and the new failure is a 429) and a callback was supplied,
the controller invokes the callback before anything else in that
iteration — it is the first trace event; if the callback returns true,
the recursion continues with `attempt = 0`, `consecutive_429_count = 0`
and the delay reset to `initial_delay_s`, so the current attempt does not
count against `max_attempts`; if it returns false or raises, the loop
proceeds with the incremented attempt and 429 counters exactly as normal
retry accounting would (break when exhausted, otherwise sleep and double
the delay). -/
theorem c2_persistent_429_fallback {α : Type} (opts : RetryOptions)
    (cb : CBRes) (cbRest : List CBRes) (entry : AttemptEntry α)
    (rest : List (AttemptEntry α)) (a c : Nat) (d : ℚ) (exc : Option RetryErr)
    (e : RetryErr) (hlt : a < opts.maxAttempts)
    (hres : entry.res = Except.error e) (h429 : is429 e = true) (hc : 1 ≤ c)
    (hcb : opts.hasCallback = true) :
    (cb = CBRes.returns true →
      retryGo opts (entry :: rest) (cb :: cbRest) a c d exc =
        ((retryGo opts rest cbRest 0 0 opts.initialDelay (some e)).1,
          TraceEv.fallbackCalled cb ::
            (retryGo opts rest cbRest 0 0 opts.initialDelay (some e)).2))
    ∧ (cb ≠ CBRes.returns true →
      (opts.maxAttempts ≤ a + 1 →
        retryGo opts (entry :: rest) (cb :: cbRest) a c d exc =
          (RetryOutcome.raised e, [TraceEv.fallbackCalled cb]))
      ∧ (a + 1 < opts.maxAttempts →
        retryGo opts (entry :: rest) (cb :: cbRest) a c d exc =
          ((retryGo opts rest cbRest (a + 1) (c + 1)
              (min opts.maxDelay (d * 2)) (some e)).1,
            TraceEv.fallbackCalled cb ::
              TraceEv.slept (computeBase e d entry.now)
                (jitteredDelay (computeBase e d entry.now) entry.rand) ::
              (retryGo opts rest cbRest (a + 1) (c + 1)
                (min opts.maxDelay (d * 2)) (some e)).2))) := by
  have hmax : ¬ opts.maxAttempts ≤ a := by omega
  have h2 : 2 ≤ c + 1 := by omega
  have hsr : shouldRetry e = true := is429_shouldRetry h429
  constructor
  · intro hcbt
    subst hcbt
    conv_lhs => rw [retryGo]
    rw [if_neg hmax, hres]
    simp [h429, hcb, h2]
  · intro hne
    constructor
    · intro hmax2
      conv_lhs => rw [retryGo]
      rw [if_neg hmax, hres]
      simp [h429, hcb, h2, hne, hmax2]
    · intro hlt2
      have hnm : ¬ opts.maxAttempts ≤ a + 1 := by omega
      conv_lhs => rw [retryGo]
      rw [if_neg hmax, hres]
      simp [h429, hcb, h2, hne, hsr, hnm]

/-- C6: a failure is classified retryable by `should_retry` iff it is an
HTTP status error with code 429 or a code in the interval from 500 to
599; a non-retryable failure is re-raised at once — no sleep, no further
attempt, the rest of the script untouched; when the attempt budget is
exhausted (at the loop head, or on the post-increment check after a
retryable failure) the last observed exception is re-raised unchanged. -/
theorem c6_retry_classification {α : Type} :
    (∀ e : RetryErr, shouldRetry e = true ↔
      ∃ s ra, e = RetryErr.http s ra ∧ (s = 429 ∨ (500 ≤ s ∧ s < 600)))
    ∧ (∀ (opts : RetryOptions) (entry : AttemptEntry α)
        (rest : List (AttemptEntry α)) (cbs : List CBRes) (a c : Nat) (d : ℚ)
        (exc : Option RetryErr) (e : RetryErr),
        a < opts.maxAttempts → entry.res = Except.error e →
        shouldRetry e = false →
        retryGo opts (entry :: rest) cbs a c d exc
          = (RetryOutcome.raised e, []))
    ∧ (∀ (opts : RetryOptions) (entries : List (AttemptEntry α))
        (cbs : List CBRes) (a c : Nat) (d : ℚ) (e : RetryErr),
        opts.maxAttempts ≤ a →
        retryGo opts entries cbs a c d (some e)
          = (RetryOutcome.raised e, []))
    ∧ (∀ (opts : RetryOptions) (entry : AttemptEntry α)
        (rest : List (AttemptEntry α)) (cbs : List CBRes) (a c : Nat) (d : ℚ)
        (exc : Option RetryErr) (e : RetryErr),
        a < opts.maxAttempts → opts.maxAttempts ≤ a + 1 →
        entry.res = Except.error e →
        ¬(2 ≤ (if is429 e then c + 1 else 0) ∧ opts.hasCallback = true) →
        retryGo opts (entry :: rest) cbs a c d exc
          = (RetryOutcome.raised e, [])) := by
  refine ⟨?_, ?_, ?_, ?_⟩
  · intro e
    cases e with
    | http s ra =>
      simp only [shouldRetry, Bool.or_eq_true, beq_iff_eq, Bool.and_eq_true,
        decide_eq_true_eq]
      constructor
      · intro h
        exact ⟨s, ra, rfl, h⟩
      · rintro ⟨s', ra', heq, hor⟩
        injection heq with h1 h2
        subst h1
        exact hor
    | other =>
      simp only [shouldRetry, Bool.false_eq_true, false_iff]
      rintro ⟨s, ra, heq, -⟩
      exact RetryErr.noConfusion heq
  · intro opts entry rest cbs a c d exc e hlt hres hsr
    have hmax : ¬ opts.maxAttempts ≤ a := by omega
    have h429 : is429 e = false := shouldRetry_false_is429 hsr
    conv_lhs => rw [retryGo]
    rw [if_neg hmax, hres]
    simp [h429, hsr]
  · intro opts entries cbs a c d e hmax
    cases entries with
    | nil =>
      conv_lhs => rw [retryGo]
      rw [if_pos hmax]
      rfl
    | cons entry rest =>
      conv_lhs => rw [retryGo]
      rw [if_pos hmax]
      rfl
  · intro opts entry rest cbs a c d exc e hlt hmax2 hres hnofb
    have hmax : ¬ opts.maxAttempts ≤ a := by omega
    conv_lhs => rw [retryGo]
    rw [if_neg hmax, hres]
    simp [hnofb, hmax2]

/-- C7: on a 429 the unjittered base delay is the parsed `Retry-After`
header when present — integer seconds first (so a header of 5 gives a
base of exactly 5 seconds, overriding the exponential default), else the
HTTP-date minus the current time — and the current exponential delay when
the header is absent or unparsable or the failure is not a 429; the sleep
applies symmetric ±50% jitter to the chosen base, floored at zero (for a
non-negative base the slept duration lies between half and one-and-a-half
times the base); after the sleep the exponential delay doubles, capped at
`max_delay_s`. -/
theorem c7_retry_after_delay {α : Type} :
    (∀ (n : Int) (d now : ℚ),
      computeBase (RetryErr.http 429 (some (RAHeader.seconds n))) d now
        = (n : ℚ))
    ∧ (∀ d now : ℚ,
      computeBase (RetryErr.http 429 (some (RAHeader.seconds 5))) d now = 5)
    ∧ (∀ t d now : ℚ,
      computeBase (RetryErr.http 429 (some (RAHeader.httpDate t))) d now
        = t - now)
    ∧ (∀ d now : ℚ,
      computeBase (RetryErr.http 429 none) d now = d
      ∧ computeBase (RetryErr.http 429 (some RAHeader.unparsable)) d now = d)
    ∧ (∀ (e : RetryErr) (d now : ℚ), is429 e = false →
      computeBase e d now = d)
    ∧ (∀ base r : ℚ,
      jitteredDelay base r = max 0 (base + base * (1 / 2) * (r * 2 - 1)))
    ∧ (∀ base r : ℚ, 0 ≤ base → 0 ≤ r → r ≤ 1 →
      base / 2 ≤ jitteredDelay base r ∧ jitteredDelay base r ≤ 3 * base / 2)
    ∧ (∀ (opts : RetryOptions) (entry : AttemptEntry α)
        (rest : List (AttemptEntry α)) (cbs : List CBRes) (a c : Nat) (d : ℚ)
        (exc : Option RetryErr) (e : RetryErr),
        a < opts.maxAttempts → a + 1 < opts.maxAttempts →
        entry.res = Except.error e → shouldRetry e = true →
        ¬(2 ≤ (if is429 e then c + 1 else 0) ∧ opts.hasCallback = true) →
        retryGo opts (entry :: rest) cbs a c d exc =
          ((retryGo opts rest cbs (a + 1) (if is429 e then c + 1 else 0)
              (min opts.maxDelay (d * 2)) (some e)).1,
            TraceEv.slept (computeBase e d entry.now)
              (jitteredDelay (computeBase e d entry.now) entry.rand) ::
            (retryGo opts rest cbs (a + 1) (if is429 e then c + 1 else 0)
              (min opts.maxDelay (d * 2)) (some e)).2)) := by
  refine ⟨fun n d now => rfl, fun d now => rfl, fun t d now => rfl,
    fun d now => ⟨rfl, rfl⟩, ?_, fun base r => rfl, ?_, ?_⟩
  · intro e d now h429
    cases e with
    | http s ra =>
      simp only [is429, beq_eq_false_iff_ne, ne_eq] at h429
      simp only [computeBase]
      rw [if_neg h429]
    | other => rfl
  · intro base r hb hr0 hr1
    have hX : base + base * (1 / 2) * (r * 2 - 1) = base / 2 + base * r := by
      ring
    have hbr0 : 0 ≤ base * r := mul_nonneg hb hr0
    have hbr1 : base * r ≤ base := mul_le_of_le_one_right hb hr1
    unfold jitteredDelay
    rw [hX]
    constructor
    · exact le_max_of_le_right (by linarith)
    · exact max_le (by linarith) (by linarith)
  · intro opts entry rest cbs a c d exc e hlt hlt2 hres hsr hnofb
    have hmax : ¬ opts.maxAttempts ≤ a := by omega
    have hnm : ¬ opts.maxAttempts ≤ a + 1 := by omega
    conv_lhs => rw [retryGo]
    rw [if_neg hmax, hres]
    simp [hnofb, hsr, hnm]

theorem c2_witness :
    retryGo ⟨3, 1, 30, true⟩ [entry429] [CBRes.returns true] 0 1 1 none =
      ((retryGo ⟨3, 1, 30, true⟩ ([] : List (AttemptEntry Nat)) []
          0 0 (1 : ℚ) (some err429)).1,
        TraceEv.fallbackCalled (CBRes.returns true) ::
          (retryGo ⟨3, 1, 30, true⟩ ([] : List (AttemptEntry Nat)) []
            0 0 (1 : ℚ) (some err429)).2) :=
  (c2_persistent_429_fallback ⟨3, 1, 30, true⟩ (CBRes.returns true) []
    entry429 [] 0 1 1 none err429 (by decide) rfl (by decide) (by decide)
    rfl).1 rfl

theorem c6_witness :
    retryGo ⟨5, 1, 30, false⟩
        [(⟨Except.error RetryErr.other, 0, 0⟩ : AttemptEntry Nat)] []
        0 0 1 none = (RetryOutcome.raised RetryErr.other, [])
    ∧ retryGo ⟨5, 1, 30, false⟩ ([] : List (AttemptEntry Nat)) []
        7 0 1 (some RetryErr.other)
        = (RetryOutcome.raised RetryErr.other, []) :=
  ⟨(c6_retry_classification (α := Nat)).2.1 ⟨5, 1, 30, false⟩
      ⟨Except.error RetryErr.other, 0, 0⟩ [] [] 0 0 1 none RetryErr.other
      (by decide) rfl (by decide),
    (c6_retry_classification (α := Nat)).2.2.1 ⟨5, 1, 30, false⟩ [] []
      7 0 1 RetryErr.other (by decide)⟩

theorem c7_witness :
    computeBase (RetryErr.http 429 (some (RAHeader.seconds 5))) 7 0 = 5
    ∧ (4 : ℚ) / 2 ≤ jitteredDelay 4 (1 / 2)
    ∧ jitteredDelay 4 (1 / 2) ≤ 3 * 4 / 2 :=
  ⟨(c7_retry_after_delay (α := Nat)).2.1 7 0,
    ((c7_retry_after_delay (α := Nat)).2.2.2.2.2.2.1 4 (1 / 2)
      (by norm_num) (by norm_num) (by norm_num)).1,
    ((c7_retry_after_delay (α := Nat)).2.2.2.2.2.2.1 4 (1 / 2)
      (by norm_num) (by norm_num) (by norm_num)).2⟩

end GeminiCli

